import Mathlib

/-!
Verification of the DeepSeek streaming-protocol adapter.

Shallow embedding of `src/deepseekClient.ts` (`DeepSeekClient.streamChatCompletion`)
and `src/provider.ts` (`DeepSeekChatProvider.convertMessages` and the reasoning
correlation cache handling).

Modelling conventions:
* The HTTP response body is a sequence of already-decoded character chunks
  (`List (List Char)`): `TextDecoder.decode(·, stream: true)` over a split byte
  stream is exactly concatenation at the character level.
* `JSON.parse` of a `data:` frame payload is an abstract parameter
  `parse : List Char → Option StreamChunk`; a parse failure (the `catch` that
  only logs) is `none`.
* The `pendingToolCalls` JavaScript `Map` is an insertion-ordered association
  list `List (Nat × ToolCall)`: `set` of a fresh key appends, `values()`
  iterates in insertion order.
* Callback invocations are recorded as an `Event` trace, in invocation order.
* JavaScript truthiness of an optional string field (`undefined` and `""` are
  falsy) is the `truthy` test below.
-/

/-- A fully accumulated tool call (`DeepSeekToolCall` flattened). -/
structure ToolCall where
  id : String
  name : String
  arguments : String
deriving Repr, DecidableEq

/-- One fragment of `delta.tool_calls` in a stream chunk. -/
structure ToolCallFragment where
  index : Nat
  id : Option String
  name : Option String
  arguments : Option String
deriving Repr, DecidableEq

/-- The `delta` object of a choice in a stream chunk. -/
structure Delta where
  content : Option String
  reasoning_content : Option String
  tool_calls : Option (List ToolCallFragment)
deriving Repr, DecidableEq

/-- One entry of `chunk.choices`. -/
structure ChunkChoice where
  delta : Delta
  finish_reason : Option String
deriving Repr, DecidableEq

/-- A parsed `data:` payload (`DeepSeekStreamChunk`, fields irrelevant to the
control flow omitted). -/
structure StreamChunk where
  choices : List ChunkChoice
deriving Repr, DecidableEq

/-- One observable callback invocation of `streamChatCompletion`. -/
inductive Event where
  | content (s : String)
  | reasoning (s : String)
  | toolCall (tc : ToolCall)
  | done
  | error (msg : String)
deriving Repr, DecidableEq

/-- JavaScript truthiness of an optional string: `undefined` and `""` are falsy. -/
def truthy : Option String → Bool
  | none => false
  | some s => s ≠ ""

/-- JavaScript `String.prototype.trim` whitespace (the characters relevant to
this protocol). -/
def isWsChar (c : Char) : Bool :=
  c = ' ' || c = '\t' || c = '\n' || c = '\r'

/-- `line.trim()` on a character list. -/
def trimChars (l : List Char) : List Char :=
  ((l.dropWhile isWsChar).reverse.dropWhile isWsChar).reverse

/-- `buffer.split('\n')` followed by `buffer = lines.pop()`: the complete
newline-terminated lines, and the trailing unterminated remainder. -/
def splitComplete : List Char → List (List Char) × List Char
  | [] => ([], [])
  | c :: cs =>
    if c = '\n' then ([] :: (splitComplete cs).1, (splitComplete cs).2)
    else
      match splitComplete cs with
      | ([], r) => ([], c :: r)
      | (l :: ls, r) => ((c :: l) :: ls, r)

/-- `trimmed.startsWith('data: ')`. -/
def hasDataMarker : List Char → Bool
  | 'd' :: 'a' :: 't' :: 'a' :: ':' :: ' ' :: _ => true
  | _ => false

/-- The literal characters of the termination sentinel line `data: [DONE]`. -/
def doneSentinel : List Char :=
  ['d', 'a', 't', 'a', ':', ' ', '[', 'D', 'O', 'N', 'E', ']']

/-- Mutable state of the read loop: the pending tool-call map, the callback
trace so far, and whether the function has returned via the sentinel. -/
structure LoopState where
  pending : List (Nat × ToolCall)
  events : List Event
  finished : Bool
deriving Repr, DecidableEq

/-- `pendingToolCalls.get(index)`. -/
def lookupPending (m : List (Nat × ToolCall)) (i : Nat) : Option ToolCall :=
  match m.find? (fun p => p.1 = i) with
  | some p => some p.2
  | none => none

/-- In-place update of the entry at a key (JavaScript object mutation through
the `Map`; keys are unique, positions preserved). -/
def updatePending (m : List (Nat × ToolCall)) (i : Nat) (f : ToolCall → ToolCall) :
    List (Nat × ToolCall) :=
  m.map fun p => if p.1 = i then (p.1, f p.2) else p

/-- The two `+=` appends guarded by truthiness of `tc.function?.name` and
`tc.function?.arguments`. -/
def appendFragment (tc : ToolCallFragment) (p : ToolCall) : ToolCall :=
  let p1 := if truthy tc.name then { p with name := p.name ++ tc.name.getD "" } else p
  if truthy tc.arguments then { p1 with arguments := p1.arguments ++ tc.arguments.getD "" } else p1

/-- The body of `for (const tc of choice.delta.tool_calls)` for one fragment:
create a pending entry when absent and the fragment carries a truthy id, then
append name/argument text onto the (found or created) entry. -/
def mergeFragment (m : List (Nat × ToolCall)) (tc : ToolCallFragment) :
    List (Nat × ToolCall) :=
  let m1 :=
    if (lookupPending m tc.index).isNone && truthy tc.id then
      m ++ [(tc.index, ⟨tc.id.getD "", "", ""⟩)]
    else m
  if (lookupPending m1 tc.index).isSome then updatePending m1 tc.index (appendFragment tc)
  else m1

/-- `pendingToolCalls.values()` turned into tool-call callback invocations, in
insertion order. -/
def drainEvents (pending : List (Nat × ToolCall)) : List Event :=
  pending.map fun p => Event.toolCall p.2

/-- Processing of the first choice of one parsed chunk (lines 172–212 of the
source): reasoning fragment, content fragment, tool-call fragments, and the
`finish_reason === 'tool_calls'` drain, in that order. -/
def applyChoice (st : LoopState) (choice : ChunkChoice) : LoopState :=
  let st1 :=
    if truthy choice.delta.reasoning_content then
      { st with events := st.events ++ [Event.reasoning (choice.delta.reasoning_content.getD "")] }
    else st
  let st2 :=
    if truthy choice.delta.content then
      { st1 with events := st1.events ++ [Event.content (choice.delta.content.getD "")] }
    else st1
  let st3 :=
    match choice.delta.tool_calls with
    | none => st2
    | some tcs => { st2 with pending := tcs.foldl mergeFragment st2.pending }
  if choice.finish_reason = some "tool_calls" then
    { st3 with events := st3.events ++ drainEvents st3.pending, pending := [] }
  else st3

/-- Processing of one decoded frame (`for (const line of lines)` body): trim,
skip blank and comment lines, handle the termination sentinel (drain pending
tool calls, invoke completion, return), and parse and apply `data:` payloads.
A sentinel already seen (`finished`) makes this a no-op, mirroring `return`. -/
def processLine (parse : List Char → Option StreamChunk) (st : LoopState)
    (line : List Char) : LoopState :=
  if st.finished then st
  else
    let trimmed := trimChars line
    if trimmed.isEmpty then st
    else if trimmed.head? = some ':' then st
    else if trimmed = doneSentinel then
      { st with events := st.events ++ drainEvents st.pending ++ [Event.done], finished := true }
    else if hasDataMarker trimmed then
      match parse (trimmed.drop 6) with
      | none => st
      | some chunk =>
        match chunk.choices.head? with
        | none => st
        | some choice => applyChoice st choice
    else st

/-- Processing of a batch of complete lines. -/
def processLines (parse : List Char → Option StreamChunk) (st : LoopState)
    (lines : List (List Char)) : LoopState :=
  lines.foldl (processLine parse) st

/-- How the byte stream ends once every chunk has been consumed. -/
inductive StreamEnd where
  | closed
  | aborted
  | failed (msg : String)
deriving Repr, DecidableEq

/-- `cancellationToken.isCancellationRequested` at loop iteration `i`, for a
token that becomes cancelled just before iteration `k` (tokens are monotone). -/
def cancelledAt : Option Nat → Nat → Bool
  | none, _ => false
  | some k, i => k ≤ i

/-- Trace produced after the read loop exits without having seen the sentinel:
a clean close and an abort both reach `callbacks.onDone()`; any other thrown
error reaches `callbacks.onError(...)`. -/
def endEvents (st : LoopState) : StreamEnd → List Event
  | .closed => st.events ++ [Event.done]
  | .aborted => st.events ++ [Event.done]
  | .failed msg => st.events ++ [Event.error msg]

/-- The `while (true)` read loop: check cancellation, read one chunk, buffer
and split it into complete lines, process them, and stop early when the
sentinel returned. -/
def runLoop (parse : List Char → Option StreamChunk) (cancelAt : Option Nat)
    (ending : StreamEnd) (i : Nat) (st : LoopState) (buf : List Char) :
    List (List Char) → List Event
  | [] =>
    if cancelledAt cancelAt i then st.events ++ [Event.done]
    else endEvents st ending
  | c :: cs =>
    if cancelledAt cancelAt i then st.events ++ [Event.done]
    else
      let p := splitComplete (buf ++ c)
      let st' := processLines parse st p.1
      if st'.finished then st'.events
      else runLoop parse cancelAt ending (i + 1) st' p.2 cs

/-- `JSON.parse(errorText)` outcome for a non-2xx body: unparsable, or an
object with optional `error.message` and optional top-level `message`. -/
inductive BodyJson where
  | invalid
  | obj (errMessage : Option String) (topMessage : Option String)
deriving Repr, DecidableEq

/-- A non-2xx response body: its raw text and its parse outcome. -/
structure ErrorBody where
  raw : String
  json : BodyJson
deriving Repr, DecidableEq

/-- `errorJson.error?.message || errorJson.message || errorText`, with the
`catch` falling back to the raw text. -/
def extractErrorMessage (b : ErrorBody) : String :=
  match b.json with
  | .invalid => b.raw
  | .obj em tm =>
    if truthy em then em.getD ""
    else if truthy tm then tm.getD ""
    else b.raw

/-- The message of the error thrown for a non-2xx status. -/
def apiErrorMessage (status : Nat) (b : ErrorBody) : String :=
  "DeepSeek API error (" ++ toString status ++ "): " ++ extractErrorMessage b

/-- The HTTP response as far as the control flow observes it. -/
structure ApiResponse where
  ok : Bool
  status : Nat
  errorBody : ErrorBody
  hasBody : Bool
deriving Repr, DecidableEq

/-- The initial loop state. -/
def initState : LoopState := ⟨[], [], false⟩

/-- `DeepSeekClient.streamChatCompletion` as a trace of callback invocations:
non-2xx and missing-body responses throw (caught as `onError`); otherwise the
read loop runs over the chunked body. -/
def streamChatCompletion (parse : List Char → Option StreamChunk)
    (resp : ApiResponse) (chunks : List (List Char)) (ending : StreamEnd)
    (cancelAt : Option Nat) : List Event :=
  if resp.ok = false then
    [Event.error (apiErrorMessage resp.status resp.errorBody)]
  else if resp.hasBody = false then
    [Event.error "No response body received"]
  else
    runLoop parse cancelAt ending 0 initState [] chunks

/-- Terminal callbacks: completion (`onDone`) and `onError`. -/
def isTerminal : Event → Bool
  | .done => true
  | .error _ => true
  | _ => false

/-- Content and reasoning callbacks always carry a non-empty fragment. -/
def fragmentNonEmpty : Event → Bool
  | .content s => s ≠ ""
  | .reasoning s => s ≠ ""
  | _ => true

/-- No terminal callback occurs in the given trace segment. -/
def noTerminal (es : List Event) : Prop := ∀ e ∈ es, isTerminal e = false

/-- State invariant of the read loop: either the sentinel has not been seen and
no terminal callback has fired, or it has and the trace ends with exactly one
completion callback. -/
def stOk (st : LoopState) : Prop :=
  (st.finished = false ∧ noTerminal st.events) ∨
  (st.finished = true ∧ ∃ pre, st.events = pre ++ [Event.done] ∧ noTerminal pre)

/-- Ghost function: processing of a whole buffered text at once (complete lines
only; trailing remainder discarded, as at end of stream). -/
def runAll (parse : List Char → Option StreamChunk) (st : LoopState) (s : List Char) :
    LoopState :=
  processLines parse st (splitComplete s).1

/-! Concrete stream artifacts used as witnesses and counterexamples. -/

def chunkP : StreamChunk := ⟨[⟨⟨none, none, some [⟨1, some "b", some "g", none⟩]⟩, none⟩]⟩

def chunkQ : StreamChunk := ⟨[⟨⟨none, none, some [⟨0, some "a", some "f", none⟩]⟩, none⟩]⟩

def chunkR : StreamChunk := ⟨[⟨⟨none, none, some [⟨1, none, none, some "[2]"⟩]⟩, none⟩]⟩

def chunkS : StreamChunk := ⟨[⟨⟨none, none, some [⟨0, none, none, some "[1]"⟩]⟩, none⟩]⟩

def chunkF : StreamChunk := ⟨[⟨⟨none, none, none⟩, some "tool_calls"⟩]⟩

def chunkH : StreamChunk := ⟨[⟨⟨some "hi", some "deep", none⟩, none⟩]⟩

def chunkX : StreamChunk := ⟨[⟨⟨none, none, some [⟨0, some "call_1", some "f", some "[1]"⟩]⟩, none⟩]⟩

/-- A concrete payload decoder for single-letter frame payloads. -/
def parseTable (s : List Char) : Option StreamChunk :=
  if s = "P".data then some chunkP
  else if s = "Q".data then some chunkQ
  else if s = "R".data then some chunkR
  else if s = "S".data then some chunkS
  else if s = "F".data then some chunkF
  else if s = "H".data then some chunkH
  else if s = "X".data then some chunkX
  else none

def respOk : ApiResponse := ⟨true, 200, ⟨"", .invalid⟩, true⟩

def respBadKey : ApiResponse := ⟨false, 401, ⟨"raw", .obj (some "bad key") none⟩, true⟩

/-- The delta sequence of a stream carrying two tool calls at indices 0 and 1,
each with id in its first fragment and name/argument text split across three
deltas, followed by the tool-call terminal reason. -/
def twoCallDeltas (i0 i1 n00 n01 n02 a00 a01 a02 n10 n11 n12 a10 a11 a12 : String) :
    List ChunkChoice :=
  [⟨⟨none, none, some [⟨0, some i0, some n00, some a00⟩]⟩, none⟩,
   ⟨⟨none, none, some [⟨1, some i1, some n10, some a10⟩]⟩, none⟩,
   ⟨⟨none, none, some [⟨0, none, some n01, some a01⟩, ⟨1, none, some n11, some a11⟩]⟩, none⟩,
   ⟨⟨none, none, some [⟨0, none, some n02, some a02⟩, ⟨1, none, some n12, some a12⟩]⟩, none⟩,
   ⟨⟨none, none, none⟩, some "tool_calls"⟩]

/-! The reasoning correlation cache of `provider.ts`, as an insertion-ordered
association list mirroring a JavaScript `Map`. -/

/-- `reasoningCache.set(k, v)`: update in place when the key exists, append
otherwise. -/
def mapSet (m : List (String × String)) (k v : String) : List (String × String) :=
  if m.any fun p => p.1 = k then m.map fun p => if p.1 = k then (k, v) else p
  else m ++ [(k, v)]

/-- `reasoningCache.delete(k)`. -/
def mapDelete (m : List (String × String)) (k : String) : List (String × String) :=
  m.filter fun p => p.1 ≠ k

/-- `this.reasoningCache.clear()` at the start of every session. -/
def sessionStartCache (_c : List (String × String)) : List (String × String) := []

/-- The over-capacity trim in the completion callback: when more than 50
entries exist, delete the first `size − 50` keys in insertion order. -/
def evictCache (m : List (String × String)) : List (String × String) :=
  if 50 < m.length then
    ((m.map Prod.fst).take (m.length - 50)).foldl mapDelete m
  else m

/-- 60 sequential insertions into an empty cache. -/
def seq60 : List (String × String) :=
  (List.range 60).foldl (fun c i => mapSet c (Nat.repr i) (Nat.repr i)) []

/-! The message bridge of `provider.ts` (`convertMessages` and `mapRole`).
A tool-call part's structured `input` is represented by its JSON
serialization (the string `JSON.stringify(part.input)` would produce);
`JSON.stringify` over a tool result's raw content list is the abstract
parameter `stringifyParts`. -/

inductive ChatRole where
  | user
  | assistant
  | other
deriving Repr, DecidableEq

/-- An item inside a tool-result part's content: a text part or anything else. -/
inductive ResultPart where
  | text (s : String)
  | nonText
deriving Repr, DecidableEq

/-- A content part of a caller-facing chat message. -/
inductive ChatPart where
  | text (s : String)
  | toolCall (callId : String) (name : String) (input : String)
  | toolResult (callId : String) (content : List ResultPart)
  | nonText
deriving Repr, DecidableEq

structure ChatRequestMessage where
  role : ChatRole
  content : List ChatPart
deriving Repr, DecidableEq

/-- A vendor wire message (`DeepSeekMessage`). -/
structure DeepSeekMessage where
  role : String
  content : String
  tool_call_id : Option String
  tool_calls : Option (List ToolCall)
  reasoning_content : Option String
deriving Repr, DecidableEq

/-- `mapRole`: `User ↦ 'user'`, `Assistant ↦ 'assistant'`, default `'user'`. -/
def mapRole : ChatRole → String
  | .user => "user"
  | .assistant => "assistant"
  | .other => "user"

/-- Concatenation of the text items of a tool-result part's content. -/
def resultText (items : List ResultPart) : String :=
  items.foldl (fun acc it => match it with | .text s => acc ++ s | .nonText => acc) ""

/-- Per-turn accumulation: concatenated text, collected tool calls, and
collected tool results (call id, rendered content). -/
structure TurnAcc where
  content : String
  toolCalls : List ToolCall
  toolResults : List (String × String)
deriving Repr, DecidableEq

/-- The `for (const part of message.content)` loop of `convertMessages`. -/
def scanParts (stringifyParts : List ResultPart → String) (parts : List ChatPart) : TurnAcc :=
  parts.foldl (fun acc p =>
    match p with
    | .text s => { acc with content := acc.content ++ s }
    | .toolCall id n input => { acc with toolCalls := acc.toolCalls ++ [⟨id, n, input⟩] }
    | .toolResult id items =>
      let tc := resultText items
      { acc with toolResults :=
          acc.toolResults ++ [(id, if tc ≠ "" then tc else stringifyParts items)] }
    | .nonText => acc) ⟨"", [], []⟩

/-- `reasoningCache.get(k)`. -/
def mapGet (m : List (String × String)) (k : String) : Option String :=
  match m.find? (fun p => p.1 = k) with
  | some p => some p.2
  | none => none

/-- The cached-reasoning lookup over a turn's tool calls: first truthy hit
wins. -/
def findReasoning (cache : List (String × String)) : List ToolCall → Option String
  | [] => none
  | tc :: rest =>
    match mapGet cache tc.id with
    | some cached => if cached ≠ "" then some cached else findReasoning cache rest
    | none => findReasoning cache rest

/-- `DeepSeekChatProvider.convertMessages`. -/
def convertMessages (stringifyParts : List ResultPart → String)
    (reasoningCache : List (String × String))
    (messages : List ChatRequestMessage) (isReasoner : Bool) : List DeepSeekMessage :=
  messages.foldl (fun result message =>
    let role := mapRole message.role
    let acc := scanParts stringifyParts message.content
    let primary : List DeepSeekMessage :=
      if role = "assistant" then
        let reasoningFound :=
          if isReasoner then findReasoning reasoningCache acc.toolCalls else none
        [{ role := "assistant", content := acc.content, tool_call_id := none,
           tool_calls := if acc.toolCalls.length > 0 then some acc.toolCalls else none,
           reasoning_content := if isReasoner then some (reasoningFound.getD "") else none }]
      else if acc.content ≠ "" then
        [{ role := role, content := acc.content, tool_call_id := none,
           tool_calls := none, reasoning_content := none }]
      else []
    result ++ primary ++ acc.toolResults.map (fun tr =>
      { role := "tool", content := tr.2, tool_call_id := some tr.1,
        tool_calls := none, reasoning_content := none })) []

/-! Supporting lemmas. -/

theorem splitComplete_append (s t : List Char) :
    splitComplete (s ++ t) =
      ((splitComplete s).1 ++ (splitComplete ((splitComplete s).2 ++ t)).1,
       (splitComplete ((splitComplete s).2 ++ t)).2) := by
  induction s with
  | nil => simp [splitComplete]
  | cons c cs ih =>
    by_cases hc : c = '\n'
    · subst hc
      simp [splitComplete, ih]
    · rcases h : splitComplete cs with ⟨ls, r⟩
      cases ls with
      | nil =>
        have hx := ih
        rw [h] at hx
        simp only [List.nil_append] at hx
        simp only [List.cons_append, splitComplete, if_neg hc, h, List.nil_append]
        rcases hX : splitComplete (r ++ t) with ⟨ls', r'⟩
        rw [hX] at hx
        rw [show cs ++ t = cs.append t from rfl] at hx
        rw [hx]
      | cons l ls1 =>
        have hx := ih
        rw [h] at hx
        simp only [List.cons_append] at hx
        simp only [List.cons_append, splitComplete, if_neg hc, h]
        rw [show cs ++ t = cs.append t from rfl] at hx
        rw [hx]

theorem splitComplete_snd_no_newline (s : List Char) : '\n' ∉ (splitComplete s).2 := by
  induction s with
  | nil => simp [splitComplete]
  | cons c cs ih =>
    by_cases hc : c = '\n'
    · subst hc; simpa [splitComplete] using ih
    · rcases h : splitComplete cs with ⟨ls, r⟩
      rw [h] at ih
      cases ls with
      | nil => simp [splitComplete, if_neg hc, h]; exact ⟨fun he => hc he.symm, ih⟩
      | cons l ls1 => simpa [splitComplete, if_neg hc, h] using ih

theorem splitComplete_of_no_newline (s : List Char) (h : '\n' ∉ s) :
    splitComplete s = ([], s) := by
  induction s with
  | nil => simp [splitComplete]
  | cons c cs ih =>
    have hc : c ≠ '\n' := fun he => h (he ▸ List.mem_cons_self c cs)
    have hcs : '\n' ∉ cs := fun hm => h (List.mem_cons_of_mem c hm)
    simp [splitComplete, if_neg hc, ih hcs]

theorem processLines_append (parse : List Char → Option StreamChunk) (st : LoopState)
    (l1 l2 : List (List Char)) :
    processLines parse st (l1 ++ l2) = processLines parse (processLines parse st l1) l2 := by
  simp [processLines, List.foldl_append]

theorem processLine_finished (parse : List Char → Option StreamChunk) (st : LoopState)
    (l : List Char) (h : st.finished = true) : processLine parse st l = st := by
  simp [processLine, h]

theorem processLines_finished (parse : List Char → Option StreamChunk) (st : LoopState)
    (ls : List (List Char)) (h : st.finished = true) : processLines parse st ls = st := by
  induction ls with
  | nil => rfl
  | cons l ls ih =>
    simp only [processLines, List.foldl_cons] at *
    rw [processLine_finished parse st l h]
    exact ih

theorem runAll_append (parse : List Char → Option StreamChunk) (st : LoopState)
    (s t : List Char) :
    runAll parse st (s ++ t) = runAll parse (processLines parse st (splitComplete s).1)
      ((splitComplete s).2 ++ t) := by
  unfold runAll
  rw [splitComplete_append, processLines_append]

theorem runLoop_no_cancel (parse : List Char → Option StreamChunk) (ending : StreamEnd) :
    ∀ (cs : List (List Char)) (i : Nat) (st : LoopState) (buf : List Char),
      st.finished = false → splitComplete buf = ([], buf) →
      runLoop parse none ending i st buf cs =
        (if (runAll parse st (buf ++ cs.flatten)).finished then
          (runAll parse st (buf ++ cs.flatten)).events
        else endEvents (runAll parse st (buf ++ cs.flatten)) ending) := by
  intro cs
  induction cs with
  | nil =>
    intro i st buf hf hbuf
    simp [runLoop, cancelledAt, runAll, hbuf, processLines, hf]
  | cons c cs ih =>
    intro i st buf hf hbuf
    simp only [runLoop, cancelledAt, Bool.false_eq_true, if_false]
    have hjoin : buf ++ (c :: cs).flatten = (buf ++ c) ++ cs.flatten := by
      simp
    rw [hjoin, runAll_append]
    set st' := processLines parse st (splitComplete (buf ++ c)).1 with hst'
    have hbuf' : splitComplete (splitComplete (buf ++ c)).2 = ([], (splitComplete (buf ++ c)).2) :=
      splitComplete_of_no_newline _ (splitComplete_snd_no_newline _)
    by_cases hfin : st'.finished
    · rw [if_pos hfin]
      have : runAll parse st' ((splitComplete (buf ++ c)).2 ++ cs.flatten) = st' := by
        unfold runAll
        exact processLines_finished _ _ _ hfin
      rw [this, if_pos hfin]
    · rw [if_neg hfin]
      have hfin' : st'.finished = false := by simpa using hfin
      exact ih (i + 1) st' (splitComplete (buf ++ c)).2 hfin' hbuf'

theorem truthy_getD (o : Option String) (h : truthy o = true) : o.getD "" ≠ "" := by
  cases o with
  | none => simp [truthy] at h
  | some s => simpa [truthy] using h

theorem applyChoice_finished (st : LoopState) (c : ChunkChoice) :
    (applyChoice st c).finished = st.finished := by
  unfold applyChoice
  split_ifs <;> cases c.delta.tool_calls <;> simp

theorem applyChoice_pres (P : Event → Prop)
    (hdrain : ∀ p : ToolCall, P (Event.toolCall p))
    (hreason : ∀ s, s ≠ "" → P (Event.reasoning s))
    (hcontent : ∀ s, s ≠ "" → P (Event.content s))
    (st : LoopState) (c : ChunkChoice)
    (h : ∀ e ∈ st.events, P e) :
    ∀ e ∈ (applyChoice st c).events, P e := by
  have hdr : ∀ (p : List (Nat × ToolCall)) (e : Event), e ∈ drainEvents p → P e := by
    intro p e he
    simp only [drainEvents, List.mem_map] at he
    rcases he with ⟨x, _, rfl⟩
    exact hdrain x.2
  have aux4 : ∀ st' : LoopState, (∀ e ∈ st'.events, P e) →
      ∀ e ∈ (if c.finish_reason = some "tool_calls" then
        { st' with events := st'.events ++ drainEvents st'.pending, pending := ([] : List (Nat × ToolCall)) }
      else st').events, P e := by
    intro st' h' e he
    split_ifs at he
    · simp only [List.mem_append] at he
      rcases he with he | he
      · exact h' e he
      · exact hdr _ _ he
    · exact h' e he
  have aux2 : ∀ st' : LoopState, (∀ e ∈ st'.events, P e) →
      ∀ e ∈ (if truthy c.delta.content then
        { st' with events := st'.events ++ [Event.content (c.delta.content.getD "")] }
      else st').events, P e := by
    intro st' h' e he
    split_ifs at he with hc
    · simp only [List.mem_append, List.mem_singleton] at he
      rcases he with he | rfl
      · exact h' e he
      · exact hcontent _ (truthy_getD _ hc)
    · exact h' e he
  have aux1 : ∀ e ∈ (if truthy c.delta.reasoning_content then
        { st with events := st.events ++ [Event.reasoning (c.delta.reasoning_content.getD "")] }
      else st).events, P e := by
    intro e he
    split_ifs at he with hc
    · simp only [List.mem_append, List.mem_singleton] at he
      rcases he with he | rfl
      · exact h e he
      · exact hreason _ (truthy_getD _ hc)
    · exact h e he
  simp only [applyChoice]
  refine aux4 _ ?_
  rcases htc : c.delta.tool_calls with _ | tcs <;> simp only [htc] <;>
    exact aux2 _ aux1

theorem drain_isTerminal (p : List (Nat × ToolCall)) :
    ∀ e ∈ drainEvents p, isTerminal e = false := by
  intro e he
  simp only [drainEvents, List.mem_map] at he
  rcases he with ⟨x, _, rfl⟩
  rfl

theorem processLine_stOk (parse : List Char → Option StreamChunk) (st : LoopState)
    (l : List Char) (h : stOk st) : stOk (processLine parse st l) := by
  rcases h with ⟨hf, hnt⟩ | ⟨hf, hsh⟩
  · unfold processLine
    rw [hf]
    simp only [Bool.false_eq_true, if_false]
    split_ifs with hempty hcomment hsent hdata
    · exact Or.inl ⟨hf, hnt⟩
    · exact Or.inl ⟨hf, hnt⟩
    · refine Or.inr ⟨rfl, st.events ++ drainEvents st.pending, ?_, ?_⟩
      · simp
      · intro e he
        rcases List.mem_append.1 he with he | he
        · exact hnt e he
        · exact drain_isTerminal _ e he
    · rcases hp : parse ((trimChars l).drop 6) with _ | chunk
      · show stOk st
        exact Or.inl ⟨hf, hnt⟩
      · show stOk (match chunk.choices.head? with
          | none => st
          | some choice => applyChoice st choice)
        rcases hc : chunk.choices.head? with _ | choice
        · show stOk st
          exact Or.inl ⟨hf, hnt⟩
        · show stOk (applyChoice st choice)
          exact Or.inl ⟨(applyChoice_finished st choice).trans hf,
            applyChoice_pres (fun e => isTerminal e = false) (fun p => rfl) (fun s _ => rfl)
              (fun s _ => rfl) st choice hnt⟩
    · exact Or.inl ⟨hf, hnt⟩
  · rw [processLine_finished parse st l hf]
    exact Or.inr ⟨hf, hsh⟩

theorem processLines_stOk (parse : List Char → Option StreamChunk) (st : LoopState)
    (ls : List (List Char)) (h : stOk st) : stOk (processLines parse st ls) := by
  induction ls generalizing st with
  | nil => exact h
  | cons l ls ih =>
    simp only [processLines, List.foldl_cons]
    exact ih _ (processLine_stOk parse st l h)

theorem processLine_pres (P : Event → Prop)
    (hdrain : ∀ p : ToolCall, P (Event.toolCall p))
    (hdone : P Event.done)
    (hreason : ∀ s, s ≠ "" → P (Event.reasoning s))
    (hcontent : ∀ s, s ≠ "" → P (Event.content s))
    (parse : List Char → Option StreamChunk) (st : LoopState) (l : List Char)
    (h : ∀ e ∈ st.events, P e) :
    ∀ e ∈ (processLine parse st l).events, P e := by
  have hdr : ∀ (p : List (Nat × ToolCall)) (e : Event), e ∈ drainEvents p → P e := by
    intro p e he
    simp only [drainEvents, List.mem_map] at he
    rcases he with ⟨x, _, rfl⟩
    exact hdrain x.2
  by_cases hfin : st.finished = true
  case pos => rw [processLine_finished parse st l hfin]; exact h
  have hf : st.finished = false := by simpa using hfin
  unfold processLine
  rw [hf]
  simp only [Bool.false_eq_true, if_false]
  split_ifs with hempty hcomment hsent hdata
  · exact h
  · exact h
  · intro e he
    simp only [List.mem_append, List.mem_singleton] at he
    rcases he with (he | he) | rfl
    · exact h e he
    · exact hdr _ _ he
    · exact hdone
  · rcases hp : parse ((trimChars l).drop 6) with _ | chunk
    · exact h
    · show ∀ e ∈ (match chunk.choices.head? with
        | none => st
        | some choice => applyChoice st choice).events, P e
      rcases hc : chunk.choices.head? with _ | choice
      · exact h
      · exact applyChoice_pres P hdrain hreason hcontent st choice h
  · exact h

theorem processLines_pres (P : Event → Prop)
    (hdrain : ∀ p : ToolCall, P (Event.toolCall p))
    (hdone : P Event.done)
    (hreason : ∀ s, s ≠ "" → P (Event.reasoning s))
    (hcontent : ∀ s, s ≠ "" → P (Event.content s))
    (parse : List Char → Option StreamChunk) (st : LoopState) (ls : List (List Char))
    (h : ∀ e ∈ st.events, P e) :
    ∀ e ∈ (processLines parse st ls).events, P e := by
  induction ls generalizing st with
  | nil => exact h
  | cons l ls ih =>
    simp only [processLines, List.foldl_cons]
    exact ih _ (processLine_pres P hdrain hdone hreason hcontent parse st l h)

theorem runLoop_goodTrace (parse : List Char → Option StreamChunk)
    (cancelAt : Option Nat) (ending : StreamEnd) :
    ∀ (cs : List (List Char)) (i : Nat) (st : LoopState) (buf : List Char),
      st.finished = false → noTerminal st.events →
      ∃ pre t, runLoop parse cancelAt ending i st buf cs = pre ++ [t] ∧
        isTerminal t = true ∧ noTerminal pre := by
  intro cs
  induction cs with
  | nil =>
    intro i st buf hf hnt
    simp only [runLoop]
    split_ifs
    · exact ⟨st.events, Event.done, rfl, rfl, hnt⟩
    · cases ending with
      | closed => exact ⟨st.events, Event.done, rfl, rfl, hnt⟩
      | aborted => exact ⟨st.events, Event.done, rfl, rfl, hnt⟩
      | failed msg => exact ⟨st.events, Event.error msg, rfl, rfl, hnt⟩
  | cons c cs ih =>
    intro i st buf hf hnt
    simp only [runLoop]
    split_ifs with hcan hfin
    · exact ⟨st.events, Event.done, rfl, rfl, hnt⟩
    · have hok := processLines_stOk parse st (splitComplete (buf ++ c)).1 (Or.inl ⟨hf, hnt⟩)
      rcases hok with ⟨hf', _⟩ | ⟨_, pre, hsh, hn⟩
      · rw [hf'] at hfin; exact absurd hfin (by simp)
      · exact ⟨pre, Event.done, hsh, rfl, hn⟩
    · have hok := processLines_stOk parse st (splitComplete (buf ++ c)).1 (Or.inl ⟨hf, hnt⟩)
      rcases hok with ⟨hf', hnt'⟩ | ⟨hf', _⟩
      · exact ih (i + 1) _ _ hf' hnt'
      · exact absurd hf' (by simpa using hfin)

theorem runLoop_cancel_done (parse : List Char → Option StreamChunk)
    (cancelAt : Option Nat) (ending : StreamEnd) :
    ∀ (cs : List (List Char)) (i : Nat) (st : LoopState) (buf : List Char),
      st.finished = false → noTerminal st.events →
      (ending = .aborted ∨ ∃ k, cancelAt = some k ∧ k ≤ i + cs.length) →
      ∃ pre, runLoop parse cancelAt ending i st buf cs = pre ++ [Event.done] ∧
        noTerminal pre := by
  intro cs
  induction cs with
  | nil =>
    intro i st buf hf hnt hc
    simp only [runLoop]
    split_ifs with hcan
    · exact ⟨st.events, rfl, hnt⟩
    · rcases hc with rfl | ⟨k, rfl, hk⟩
      · exact ⟨st.events, rfl, hnt⟩
      · exact absurd (by simpa [cancelledAt] using hk) hcan
  | cons c cs ih =>
    intro i st buf hf hnt hc
    simp only [runLoop]
    split_ifs with hcan hfin
    · exact ⟨st.events, rfl, hnt⟩
    · have hok := processLines_stOk parse st (splitComplete (buf ++ c)).1 (Or.inl ⟨hf, hnt⟩)
      rcases hok with ⟨hf', _⟩ | ⟨_, pre, hsh, hn⟩
      · rw [hf'] at hfin; exact absurd hfin (by simp)
      · exact ⟨pre, hsh, hn⟩
    · have hok := processLines_stOk parse st (splitComplete (buf ++ c)).1 (Or.inl ⟨hf, hnt⟩)
      rcases hok with ⟨hf', hnt'⟩ | ⟨hf', _⟩
      · refine ih (i + 1) _ _ hf' hnt' ?_
        rcases hc with rfl | ⟨k, rfl, hk⟩
        · exact Or.inl rfl
        · exact Or.inr ⟨k, rfl, by simpa [Nat.add_comm, Nat.add_left_comm] using hk⟩
      · exact absurd hf' (by simpa using hfin)

theorem runLoop_pres_nonempty (parse : List Char → Option StreamChunk)
    (cancelAt : Option Nat) (ending : StreamEnd) :
    ∀ (cs : List (List Char)) (i : Nat) (st : LoopState) (buf : List Char),
      (∀ e ∈ st.events, fragmentNonEmpty e = true) →
      ∀ e ∈ runLoop parse cancelAt ending i st buf cs, fragmentNonEmpty e = true := by
  intro cs
  induction cs with
  | nil =>
    intro i st buf h
    simp only [runLoop]
    split_ifs
    · intro e he
      rcases List.mem_append.1 he with he | he
      · exact h e he
      · rw [List.mem_singleton.1 he]; rfl
    · cases ending <;>
      · intro e he
        rcases List.mem_append.1 he with he | he
        · exact h e he
        · rw [List.mem_singleton.1 he]; rfl
  | cons c cs ih =>
    intro i st buf h
    simp only [runLoop]
    split_ifs with hcan hfin
    · intro e he
      rcases List.mem_append.1 he with he | he
      · exact h e he
      · rw [List.mem_singleton.1 he]; rfl
    · exact processLines_pres (fun e => fragmentNonEmpty e = true) (fun p => rfl) rfl
        (fun s hs => by simp [fragmentNonEmpty, hs])
        (fun s hs => by simp [fragmentNonEmpty, hs]) parse st _ h
    · exact ih (i + 1) _ _ (processLines_pres (fun e => fragmentNonEmpty e = true) (fun p => rfl) rfl
        (fun s hs => by simp [fragmentNonEmpty, hs])
        (fun s hs => by simp [fragmentNonEmpty, hs]) parse st _ h)

theorem appendFragment_eq (tc : ToolCallFragment) (p : ToolCall) :
    appendFragment tc p =
      ⟨p.id, p.name ++ tc.name.getD "", p.arguments ++ tc.arguments.getD ""⟩ := by
  unfold appendFragment
  cases hn : tc.name with
  | none =>
    cases ha : tc.arguments with
    | none => simp [truthy, String.append_empty]
    | some s =>
      by_cases hs : s = "" <;>
        simp [truthy, hs, String.append_empty]
  | some s =>
    cases ha : tc.arguments with
    | none =>
      by_cases hs : s = "" <;>
        simp [truthy, hs, String.append_empty]
    | some u =>
      by_cases hs : s = "" <;> by_cases hu : u = "" <;>
        simp [truthy, hs, hu, String.append_empty]

theorem mapDelete_not_mem (m : List (String × String)) (k : String)
    (h : k ∉ m.map Prod.fst) : mapDelete m k = m := by
  induction m with
  | nil => rfl
  | cons p m ih =>
    simp only [List.map_cons, List.mem_cons] at h
    push_neg at h
    have h1 : p.1 ≠ k := fun he => h.1 he.symm
    simp only [mapDelete, List.filter_cons, h1]
    simpa [mapDelete, h1] using ih h.2

theorem foldl_delete_take (m : List (String × String)) (j : Nat)
    (h : (m.map Prod.fst).Nodup) :
    ((m.map Prod.fst).take j).foldl mapDelete m = m.drop j := by
  induction m generalizing j with
  | nil => simp
  | cons p m ih =>
    cases j with
    | zero => rfl
    | succ j =>
      simp only [List.map_cons, List.take_succ_cons, List.foldl_cons, List.drop_succ_cons]
      simp only [List.map_cons, List.nodup_cons] at h
      have h1 : mapDelete (p :: m) p.1 = m := by
        have h2 := mapDelete_not_mem m p.1 h.1
        simp only [mapDelete] at h2 ⊢
        simp [List.filter_cons, h2]
        intro a b hab hb
        exact h.1 (by rw [← hb]; exact List.mem_map_of_mem Prod.fst hab)
      rw [h1]
      exact ih j h.2

theorem foldl_append_out {α β : Type} (g h : β → List α) :
    ∀ (ms : List β) (acc : List α),
      List.foldl (fun r m => r ++ g m ++ h m) acc ms =
        acc ++ List.foldl (fun r m => r ++ g m ++ h m) [] ms := by
  intro ms
  induction ms with
  | nil => simp
  | cons m ms ih =>
    intro acc
    simp only [List.foldl_cons]
    rw [ih (acc ++ g m ++ h m), ih (([] : List α) ++ g m ++ h m)]
    simp

/-- The bridge output of a conversation is the concatenation of the outputs
of its turns. -/
theorem convertMessages_append (sp : List ResultPart → String)
    (cache : List (String × String)) (isR : Bool)
    (ms1 ms2 : List ChatRequestMessage) :
    convertMessages sp cache (ms1 ++ ms2) isR =
      convertMessages sp cache ms1 isR ++ convertMessages sp cache ms2 isR := by
  unfold convertMessages
  rw [List.foldl_append]
  rw [foldl_append_out]

theorem convertMessages_user_single (sp : List ResultPart → String)
    (cache : List (String × String)) (isR : Bool) (parts : List ChatPart) :
    convertMessages sp cache [⟨ChatRole.user, parts⟩] isR =
      (if (scanParts sp parts).content ≠ "" then
        [⟨"user", (scanParts sp parts).content, none, none, none⟩]
      else []) ++
        (scanParts sp parts).toolResults.map (fun tr =>
          ⟨"tool", tr.2, some tr.1, none, none⟩) := by
  have hne : ("user" : String) ≠ "assistant" := by decide
  simp [convertMessages, mapRole, hne]

/-! The claims. -/

/-- C1: for every well-formed event stream, the chunk-buffered incremental
parse of `streamChatCompletion` invokes the same callback sequence regardless
of how the raw stream is split into chunks: the trace depends only on the
concatenation of the chunks. -/
theorem streamChatCompletion_chunk_split_invariant
    (parse : List Char → Option StreamChunk) (resp : ApiResponse) (ending : StreamEnd)
    (cs1 cs2 : List (List Char)) (h : cs1.flatten = cs2.flatten) :
    streamChatCompletion parse resp cs1 ending none =
      streamChatCompletion parse resp cs2 ending none := by
  unfold streamChatCompletion
  split_ifs
  · rfl
  · rfl
  · rw [runLoop_no_cancel parse ending cs1 0 initState [] rfl rfl,
        runLoop_no_cancel parse ending cs2 0 initState [] rfl rfl, h]

theorem chunk_split_invariant_witness :
    streamChatCompletion parseTable respOk
      ["data: H\ndat".data, "a: [DO".data, "NE]\n".data] .closed none =
    streamChatCompletion parseTable respOk
      ["data: H\ndata: [DONE]\n".data] .closed none :=
  streamChatCompletion_chunk_split_invariant parseTable respOk .closed _ _ (by decide)

/-- C2 (amended): processing the `data: [DONE]` terminator frame delivers
every pending tool call through the tool-call callback, in insertion order,
and then invokes the completion callback. -/
theorem done_sentinel_drains (parse : List Char → Option StreamChunk)
    (st : LoopState) (h : st.finished = false) :
    processLine parse st doneSentinel =
      { st with events := st.events ++ drainEvents st.pending ++ [Event.done],
                finished := true } := by
  unfold processLine
  rw [h]
  have h1 : trimChars doneSentinel = doneSentinel := by decide
  have h2 : doneSentinel.isEmpty = false := by decide
  have h3 : ¬(doneSentinel.head? = some ':') := by decide
  simp [h1, h2, h3]

theorem done_sentinel_drains_witness :
    processLine parseTable ⟨[(0, ⟨"a", "f", "[1]"⟩)], [], false⟩ doneSentinel =
      ⟨[(0, ⟨"a", "f", "[1]"⟩)], [Event.toolCall ⟨"a", "f", "[1]"⟩, Event.done], true⟩ := by
  have h := done_sentinel_drains parseTable ⟨[(0, ⟨"a", "f", "[1]"⟩)], [], false⟩ rfl
  simpa [drainEvents] using h

/-- C2 counterexample: when the socket closes without a terminator frame, the
completion callback fires while an accumulated tool call is still pending — it
is never delivered. -/
theorem socket_close_drops_pending :
    streamChatCompletion parseTable respOk ["data: X\n".data] .closed none = [Event.done] ∧
    (processLines parseTable initState (splitComplete ("data: X\n".data)).1).pending =
      [(0, ⟨"call_1", "f", "[1]"⟩)] := by
  constructor <;> decide

/-- C3: every session trace ends with exactly one terminal callback
(completion or error), and no terminal callback occurs before it. -/
theorem streamChatCompletion_one_terminal
    (parse : List Char → Option StreamChunk) (resp : ApiResponse)
    (chunks : List (List Char)) (ending : StreamEnd) (cancelAt : Option Nat) :
    ∃ pre t, streamChatCompletion parse resp chunks ending cancelAt = pre ++ [t] ∧
      isTerminal t = true ∧ noTerminal pre := by
  unfold streamChatCompletion
  split_ifs
  · exact ⟨[], _, rfl, rfl, by intro e he; simp at he⟩
  · exact ⟨[], _, rfl, rfl, by intro e he; simp at he⟩
  · exact runLoop_goodTrace parse cancelAt ending chunks 0 initState [] rfl
      (by intro e he; simp [initState] at he)

/-- C4: a session cancelled mid-stream — whether the in-flight read is aborted
or the cancellation check fires before the next read — terminates through the
completion callback and never the error callback. -/
theorem streamChatCompletion_cancel_completes
    (parse : List Char → Option StreamChunk) (resp : ApiResponse)
    (chunks : List (List Char)) (ending : StreamEnd) (cancelAt : Option Nat)
    (hok : resp.ok = true) (hbody : resp.hasBody = true)
    (hcancel : ending = StreamEnd.aborted ∨ ∃ k, cancelAt = some k ∧ k ≤ chunks.length) :
    ∃ pre, streamChatCompletion parse resp chunks ending cancelAt = pre ++ [Event.done] ∧
      noTerminal pre := by
  unfold streamChatCompletion
  rw [hok, hbody]
  simp only [Bool.true_eq_false, if_false]
  exact runLoop_cancel_done parse cancelAt ending chunks 0 initState [] rfl
    (by intro e he; simp [initState] at he) (by simpa using hcancel)

theorem cancel_completes_witness :
    ∃ pre, streamChatCompletion parseTable respOk ["data: H\n".data, "data: H\n".data]
        .closed (some 1) = pre ++ [Event.done] ∧ noTerminal pre :=
  streamChatCompletion_cancel_completes parseTable respOk _ .closed (some 1) rfl rfl
    (Or.inr ⟨1, rfl, by decide⟩)

/-- C5: a non-2xx response fails the session through the error callback, with
the message extracted from the body (`error.message`, else `message`, else the
raw text) wrapped in the API-error format. -/
theorem non2xx_error_message
    (parse : List Char → Option StreamChunk) (resp : ApiResponse)
    (chunks : List (List Char)) (ending : StreamEnd) (cancelAt : Option Nat)
    (h : resp.ok = false) :
    streamChatCompletion parse resp chunks ending cancelAt =
      [Event.error ("DeepSeek API error (" ++ toString resp.status ++ "): "
        ++ extractErrorMessage resp.errorBody)] := by
  unfold streamChatCompletion
  rw [h]
  simp [apiErrorMessage]

theorem non2xx_error_message_witness :
    streamChatCompletion parseTable respBadKey [] .closed none =
      [Event.error "DeepSeek API error (401): bad key"] := by
  rw [non2xx_error_message parseTable respBadKey [] .closed none rfl]
  decide

/-- C6 counterexample: a stream whose two tool calls at indices 0 and 1 are
split across multiple deltas, with index 1's id arriving first, delivers the
completed calls in insertion order — index 1 before index 0, not index order. -/
theorem toolcalls_emitted_in_insertion_order :
    streamChatCompletion parseTable respOk
      ["data: P\ndata: Q\ndata: R\ndata: S\ndata: F\ndata: [DONE]\n".data] .closed none =
      [Event.toolCall ⟨"b", "g", "[2]"⟩, Event.toolCall ⟨"a", "f", "[1]"⟩, Event.done] := by
  decide

/-- C6 (amended): for the two-call stream in which index 0's call begins
before index 1's, name and argument fragments are concatenated in arrival
order and the terminal reason fires exactly two completed-call callbacks, in
index order, clearing the accumulator. -/
theorem toolcall_fragments_accumulate
    (i0 i1 n00 n01 n02 a00 a01 a02 n10 n11 n12 a10 a11 a12 : String)
    (h0 : i0 ≠ "") (h1 : i1 ≠ "") :
    (List.foldl applyChoice initState
        (twoCallDeltas i0 i1 n00 n01 n02 a00 a01 a02 n10 n11 n12 a10 a11 a12)).events =
      [Event.toolCall ⟨i0, n00 ++ n01 ++ n02, a00 ++ a01 ++ a02⟩,
       Event.toolCall ⟨i1, n10 ++ n11 ++ n12, a10 ++ a11 ++ a12⟩] ∧
    (List.foldl applyChoice initState
        (twoCallDeltas i0 i1 n00 n01 n02 a00 a01 a02 n10 n11 n12 a10 a11 a12)).pending = [] := by
  constructor <;>
    simp [twoCallDeltas, applyChoice, mergeFragment, lookupPending, updatePending,
      appendFragment_eq, truthy, h0, h1, drainEvents, initState, String.empty_append,
      String.append_assoc]

theorem toolcall_fragments_accumulate_witness :
    (List.foldl applyChoice initState
        (twoCallDeltas "a" "b" "f" "g" "h" "1" "2" "3" "p" "q" "r" "4" "5" "6")).events =
      [Event.toolCall ⟨"a", "f" ++ "g" ++ "h", "1" ++ "2" ++ "3"⟩,
       Event.toolCall ⟨"b", "p" ++ "q" ++ "r", "4" ++ "5" ++ "6"⟩] ∧
    (List.foldl applyChoice initState
        (twoCallDeltas "a" "b" "f" "g" "h" "1" "2" "3" "p" "q" "r" "4" "5" "6")).pending = [] :=
  toolcall_fragments_accumulate "a" "b" "f" "g" "h" "1" "2" "3" "p" "q" "r" "4" "5" "6"
    (by decide) (by decide)

/-- C7: the reasoning cache is cleared at the start of every session, and the
over-capacity trim at session completion keeps exactly the 50 most recently
inserted entries, removing the oldest (by insertion order). -/
theorem reasoning_cache_clear_and_evict :
    (∀ c, sessionStartCache c = []) ∧
    ∀ m : List (String × String), (m.map Prod.fst).Nodup →
      evictCache m = m.drop (m.length - 50) ∧
      (50 < m.length → (evictCache m).length = 50) := by
  refine ⟨fun _ => rfl, fun m h => ?_⟩
  have he : evictCache m = m.drop (m.length - 50) := by
    unfold evictCache
    split_ifs with hlen
    · exact foldl_delete_take m (m.length - 50) h
    · have h0 : m.length - 50 = 0 := by omega
      simp [h0]
  refine ⟨he, fun hlen => ?_⟩
  rw [he, List.length_drop]
  omega

set_option maxRecDepth 40000 in
theorem reasoning_cache_evict_witness :
    evictCache seq60 = seq60.drop (seq60.length - 50) ∧
    (evictCache seq60).length = 50 := by
  have h := reasoning_cache_clear_and_evict.2 seq60 (by decide)
  exact ⟨h.1, h.2 (by decide)⟩

/-- C8 (amended): a user turn, wherever it occurs in the conversation,
contributes its primary wire message exactly when its concatenated text is
non-empty, followed by one `tool`-role wire message per tool-result part it
carries; the spec's two concrete examples hold. -/
theorem user_turn_bridge :
    (∀ (stringifyParts : List ResultPart → String) (cache : List (String × String))
        (isReasoner : Bool) (ms1 ms2 : List ChatRequestMessage) (parts : List ChatPart),
      convertMessages stringifyParts cache (ms1 ++ ⟨ChatRole.user, parts⟩ :: ms2) isReasoner =
        convertMessages stringifyParts cache ms1 isReasoner ++
        ((if (scanParts stringifyParts parts).content ≠ "" then
          [⟨"user", (scanParts stringifyParts parts).content, none, none, none⟩]
        else []) ++
          (scanParts stringifyParts parts).toolResults.map (fun tr =>
            ⟨"tool", tr.2, some tr.1, none, none⟩)) ++
        convertMessages stringifyParts cache ms2 isReasoner) ∧
    convertMessages (fun _ => "[]") [] [⟨ChatRole.user, [ChatPart.text "hi"]⟩] false =
      [⟨"user", "hi", none, none, none⟩] ∧
    convertMessages (fun _ => "[]") [] [⟨ChatRole.user, []⟩] false = [] := by
  refine ⟨?_, by decide, by decide⟩
  intro sp cache isR ms1 ms2 parts
  rw [show (⟨ChatRole.user, parts⟩ : ChatRequestMessage) :: ms2 =
        [⟨ChatRole.user, parts⟩] ++ ms2 from rfl,
      convertMessages_append, convertMessages_append,
      convertMessages_user_single]
  simp [List.append_assoc]

/-- C8 counterexample: a user turn whose text concatenation is empty but which
carries a tool-result part emits a wire message (of role `tool`), not nothing. -/
theorem user_turn_toolresult_emits :
    convertMessages (fun _ => "[]") [] [⟨ChatRole.user, [ChatPart.toolResult "c1" []]⟩] false =
      [⟨"tool", "[]", some "c1", none, none⟩] := by
  decide

/-- C9: the content and reasoning callbacks are only ever invoked with
non-empty strings — empty or absent fragments are silently dropped. -/
theorem streamChatCompletion_fragments_nonempty
    (parse : List Char → Option StreamChunk) (resp : ApiResponse)
    (chunks : List (List Char)) (ending : StreamEnd) (cancelAt : Option Nat) :
    (streamChatCompletion parse resp chunks ending cancelAt).all fragmentNonEmpty = true := by
  rw [List.all_eq_true]
  unfold streamChatCompletion
  split_ifs
  · intro e he; rw [List.mem_singleton.1 he]; rfl
  · intro e he; rw [List.mem_singleton.1 he]; rfl
  · exact runLoop_pres_nonempty parse cancelAt ending chunks 0 initState []
      (by intro e he; simp [initState] at he)

/-- C10: a tool-call fragment arriving at an index with no pending entry and
carrying no (truthy) id is discarded entirely: the accumulator is unchanged. -/
theorem orphan_fragment_dropped (m : List (Nat × ToolCall)) (tc : ToolCallFragment)
    (h1 : lookupPending m tc.index = none) (h2 : truthy tc.id = false) :
    mergeFragment m tc = m := by
  unfold mergeFragment
  rw [h1, h2]
  simp [h1]

theorem orphan_fragment_dropped_witness :
    mergeFragment [] ⟨0, none, some "evil", some "[9]"⟩ = [] :=
  orphan_fragment_dropped [] ⟨0, none, some "evil", some "[9]"⟩ rfl rfl
